import Mathlib

/-!
Verification development for the two-stage TypeScript-to-Rust schema
converter in `scripts/gen_enum_from_strings.py` and
`scripts/ts_interface_to_rust.py`.

The Python code is embedded shallowly: every regular expression in the
source is small enough that its match semantics on a single line can be
written out as a deterministic function over `List Char`, and every
Python-level exception (`AttributeError` from a failed `re.search`,
`IndexError` from `s[0]` on an empty string) is modelled by `Option`
(`none` = the script aborts with an uncaught exception).
-/

set_option maxRecDepth 4096
set_option linter.unusedVariables false

/-- ASCII word character, the `\w` class of the Python regexes
(`[a-zA-Z0-9_]`; all inputs handled by the scripts are ASCII). -/
def isWordChar (c : Char) : Bool :=
  c.isAlpha || c.isDigit || c = '_'

/-- Python whitespace, the `\s` class and the character set stripped by
`str.strip()`: space, tab, newline, carriage return, vertical tab, form feed. -/
def isPySpace (c : Char) : Bool :=
  c = ' ' || c = '\t' || c = '\n' || c = '\r' || c = '\x0b' || c = '\x0c'

/-- `str.split(sep)` for a one-character separator: no collapsing of empty
segments, `split "" = [""]`, `split "|" = ["", ""]`. -/
def splitCh (sep : Char) : List Char → List (List Char)
  | [] => [[]]
  | c :: cs =>
    if c = sep then [] :: splitCh sep cs
    else
      match splitCh sep cs with
      | [] => [[c]]
      | g :: gs => (c :: g) :: gs

/-- `re.search(r"'?(\w+)'?", item)` followed by `.group(1)`: the first
maximal run of word characters in `item`, or `none` when `item` has no word
character at all (in Python the `.group(1)` then raises `AttributeError`). -/
def extractWord : List Char → Option String
  | [] => none
  | c :: cs =>
    if isWordChar c then some (String.mk (c :: cs.takeWhile isWordChar))
    else extractWord cs

/-- Left-to-right effectful map over `Option`, modelling a Python list
comprehension that may raise at the first failing element. -/
def mapOpt (f : α → Option β) : List α → Option (List β)
  | [] => some []
  | a :: l =>
    match f a, mapOpt f l with
    | some b, some bs => some (b :: bs)
    | _, _ => none

/-- `get_strings`: split the union expression on `"|"` and extract the bare
literal token of each segment; `none` models the `AttributeError` raised
when some segment has no extractable word token. -/
def getStrings (line : String) : Option (List String) :=
  mapOpt extractWord (splitCh '|' line.data)

/-- `cap`: `s[0].upper() + s[1:]` on the character list; `none` models the
`IndexError` raised on the empty string. -/
def cap : List Char → Option (List Char)
  | [] => none
  | c :: cs => some (c.toUpper :: cs)

/-- Total variant of `cap`, returning `[]` on `[]`; used to spell out the
value `cap` takes wherever it is defined. -/
def capT : List Char → List Char
  | [] => []
  | c :: cs => c.toUpper :: cs

/-- `str_to_variant`: split the literal on single spaces, capitalize each
word, concatenate. `none` models the `IndexError` from `cap("")` when the
literal has an empty space-separated segment. -/
def strToVariant (s : String) : Option String :=
  (mapOpt cap (splitCh ' ' s.data)).map (fun parts => String.mk parts.flatten)

/-- Total companion of `strToVariant` (the variant name the generated code
spells for a token), agreeing with `strToVariant` wherever it succeeds. -/
def vnameT (s : String) : String :=
  String.mk (((splitCh ' ' s.data).map capT).flatten)

/-- One variant of the generated Rust enum declaration, as emitted by
`get_variants`: a named unit variant for a closed literal, or the open
payload-carrying variant `String(String)` for the marker token `string`. -/
inductive VariantSpec where
  | closedV (name : String)
  | stringV
  deriving DecidableEq, Repr

/-- `get_variants`: the ordered variant list of the generated declaration. -/
def getVariants (strings : List String) : List VariantSpec :=
  strings.map (fun s =>
    if s = ("string") then VariantSpec.stringV
    else VariantSpec.closedV (vnameT s))

/-- A runtime value of the generated enum: either a closed variant,
identified by the variant name the generated source text spells, or the
open variant carrying its string payload. -/
inductive EnumVariant where
  | closedV (name : String)
  | stringV (payload : String)
  deriving DecidableEq, Repr

/-- The payload of the generated
`DeserializationError::StringToEnumParseError`: the enum name and the
offending input value. -/
structure DeserializationError where
  enum_name : String
  value : String
  deriving DecidableEq, Repr

/-- Semantics of the generated `FromStr::from_str` match: the arms produced
by `get_match_arms` are tried in order of the token list. A closed token
`item` yields the arm `"item" => Ok(Enum::<variant name of item>)`; the
marker token `string` yields the catch-all arm
`other => Ok(Enum::String(other))`; when no arm matched and no marker is
present, the final arm returns the decoding error carrying the enum name
and the input. Variant names are spelled by `str_to_variant`, which equals
`vnameT` on every token `get_strings` can produce (`strToVariant_vnameT`
and `getStrings_token_shape` below). -/
def fromStr : List String → String → String →
    Except DeserializationError EnumVariant
  | [], ename, s => Except.error ⟨ename, s⟩
  | item :: rest, ename, s =>
    if item = ("string") then Except.ok (EnumVariant.stringV s)
    else if s = item then Except.ok (EnumVariant.closedV (vnameT item))
    else fromStr rest ename s

/-- Semantics of the generated `ToString::to_string` match: the arms
produced by `get_enum2str_match_arms`, tried in order. A closed token
`item` yields `Enum::<variant name> => "item"`; the marker yields
`Enum::String(other) => other`. `none` models a value no arm matches
(a non-exhaustive match in the generated text). -/
def toStr : List String → EnumVariant → Option String
  | [], _ => none
  | item :: rest, v =>
    if item = ("string") then
      match v with
      | EnumVariant.stringV p => some p
      | EnumVariant.closedV _ => toStr rest v
    else
      match v with
      | EnumVariant.closedV n =>
        if n = vnameT item then some item else toStr rest v
      | EnumVariant.stringV _ => toStr rest v

/-- Boolean list-prefix test (by structural recursion, so that concrete
runs of the embedded scripts reduce inside the kernel). -/
def pfx : List Char → List Char → Bool
  | [], _ => true
  | _ :: _, [] => false
  | a :: as1, b :: bs => a = b && pfx as1 bs

/-- `re.search` of a fixed literal pattern: the pattern occurs as a
substring. -/
def hasSub (pat : List Char) : List Char → Bool
  | [] => pat.isEmpty
  | c :: cs => pfx pat (c :: cs) || hasSub pat cs

/-- Propositional form of substring containment, used to state the
line-filter characterization. -/
def ContainsSub (pat line : String) : Prop :=
  ∃ u v, line.data = u ++ pat.data ++ v

/-- `RE.INTERFACE.match(line)` for
`interface (?P<name>\w+)(.+?)? {`, anchored at the line start: after the
literal `interface `, the name is the maximal word-character run (backing
off the greedy `\w+` can never help, since word characters can neither be
the space of ` {` nor create a new occurrence of it), and the optional lazy
tail plus ` {` match exactly when ` {` occurs in the remainder. Returns
the captured name. -/
def interfaceMatch (line : String) : Option String :=
  let cs := line.data
  if pfx (("interface ").data) cs then
    let after := cs.drop 10
    let name := after.takeWhile isWordChar
    let rem := after.dropWhile isWordChar
    if name.isEmpty then none
    else if hasSub ((" \x7b").data) rem then some (String.mk name)
    else none
  else none

/-- Character class `['\w |]` of the variants group of `RE.ENUM`. -/
def isEnumCls (c : Char) : Bool :=
  c = '\'' || isWordChar c || c = ' ' || c = '|'

/-- `RE.ENUM.match(line)` for
`\s*(?P<var>\w+)(?P<opt>\?)?: (?=.*[|])(?P<variants>['\w |]+);`, anchored
at the line start: leading whitespace, then the field name (maximal word
run), an optional `?`, the literal `: `, a lookahead requiring a `|`
somewhere in the rest of the line, then the maximal run over `['\w |]`
followed immediately by `;` (the greedy run cannot back off, since `;` is
outside the class). Returns (var, optional?, variants text). -/
def enumMatch (line : String) : Option (String × Bool × String) :=
  let cs := line.data.dropWhile isPySpace
  let var := cs.takeWhile isWordChar
  let cs1 := cs.dropWhile isWordChar
  if var.isEmpty then none
  else
    let rest := match cs1 with
      | '?' :: r => (true, r)
      | r => (false, r)
    match rest.2 with
    | ':' :: ' ' :: cs3 =>
      if cs3.contains '|' then
        let variants := cs3.takeWhile isEnumCls
        match cs3.dropWhile isEnumCls with
        | ';' :: _ => some (String.mk var, rest.1, String.mk variants)
        | _ => none
      else none
    | _ => none

/-- `RE.FIELD` tried at one fixed position:
`(?P<var>\w+)(?P<opt>\?)?: (?P<type>\w+)(?P<arr>\[\])?,` (all the greedy
and optional pieces are forced, as every branch point is decided by a
character that cannot belong to the alternative). -/
def fieldAt (l : List Char) : Option (String × Bool × String × Bool) :=
  let var := l.takeWhile isWordChar
  if var.isEmpty then none
  else
    let l1 := l.dropWhile isWordChar
    let rest := match l1 with
      | '?' :: r => (true, r)
      | r => (false, r)
    match rest.2 with
    | ':' :: ' ' :: l3 =>
      let ty := l3.takeWhile isWordChar
      if ty.isEmpty then none
      else
        let l4 := l3.dropWhile isWordChar
        let rest2 := match l4 with
          | '[' :: ']' :: r => (true, r)
          | r => (false, r)
        match rest2.2 with
        | ',' :: _ => some (String.mk var, rest.1, String.mk ty, rest2.1)
        | _ => none
    | _ => none

/-- `RE.FIELD.search(line)`: try the pattern at every position, leftmost
match wins. -/
def fieldSearch : List Char → Option (String × Bool × String × Bool)
  | [] => none
  | c :: cs =>
    match fieldAt (c :: cs) with
    | some r => some r
    | none => fieldSearch cs

/-- `this_is_snek`: `RE.SNEK.sub("_", name).lower()` — insert `_` before
every uppercase letter that is not the first character, then lowercase the
whole name. -/
def thisIsSnek (s : String) : String :=
  match s.data with
  | [] => String.mk []
  | c :: cs =>
    String.mk (c.toLower ::
      cs.flatMap (fun d => if d.isUpper then ['_', d.toLower] else [d.toLower]))

/-- `edit_field_line`: if `RE.FIELD` matches anywhere in the line, rebuild
the whole line as `  pub <snake name>: <wrapped type>,` (array wrapping
first, then optional wrapping); otherwise the line passes through. -/
def editFieldLine (line : String) : String :=
  match fieldSearch line.data with
  | some (var, opt, ty, arr) =>
    let t1 := if arr then ("Vec<") ++ ty ++ (">") else ty
    let t2 := if opt then ("Option<") ++ t1 ++ (">") else t1
    ("  pub ") ++ thisIsSnek var ++ (": ") ++ t2 ++ (",")
  | none => line

/-- `str.capitalize()`: first character uppercased, all remaining
characters lowercased. -/
def pyCapitalize (s : String) : String :=
  match s.data with
  | [] => String.mk []
  | c :: cs => String.mk (c.toUpper :: cs.map Char.toLower)

/-- The f-string interpolation of the struct-name tracker: Python renders
the uninitialized `None` as the text `None`. -/
def optName : Option String → String
  | none => ("None")
  | some s => s

/-- The generated enum artifact stored by `rewrite_enums`: its derived name
and the token list of its union expression. The full generated source text
(`gen_enum_def`) is a function of exactly these two values, whose three
bodies are modelled by `getVariants`, `fromStr` and `toStr`. -/
structure EnumDef where
  name : String
  strings : List String
  deriving DecidableEq, Repr

/-- Insertion into an insertion-ordered Python `dict` modelled as an
association list: overwriting an existing key keeps its position,
a new key is appended. -/
def dictInsert (k : String) (v : EnumDef) :
    List (String × EnumDef) → List (String × EnumDef)
  | [] => [(k, v)]
  | (k1, v1) :: rest =>
    if k1 = k then (k, v) :: rest else (k1, v1) :: dictInsert k v rest

/-- The keys of the modelled dict, in storage order. -/
def keysOf (e : List (String × EnumDef)) : List String :=
  e.map Prod.fst

/-- The replacement line `rewrite_enums` writes back into the line list:
`  pub {varname}: {typename};` with the optional wrapper applied. -/
def mkPubLine (var : String) (opt : Bool) (tname : String) : String :=
  ("  pub ") ++ var ++ (": ") ++
    (if opt then ("Option<") ++ tname ++ (">") else tname) ++ (";")

/-- One iteration of the `rewrite_enums` scan on one line: an
interface-opening line updates the struct tracker; otherwise a union-typed
field line derives the enum name from the tracker and the capitalized field
name, runs the enum generator (`none` models its uncaught exception),
stores the artifact under the derived name and replaces the line; any other
line is kept. -/
def stepLine (st : Option String) (e : List (String × EnumDef))
    (line : String) :
    Option (Option String × List (String × EnumDef) × String) :=
  match interfaceMatch line with
  | some n => some (some n, e, line)
  | none =>
    match enumMatch line with
    | some (v, opt, variants) =>
      (getStrings variants).map (fun strs =>
        let tname := optName st ++ pyCapitalize v
        (st, dictInsert tname (EnumDef.mk tname strs) e, mkPubLine v opt tname))
    | none => some (st, e, line)

/-- The full `rewrite_enums` scan from a given tracker state and dict,
returning the final tracker, the dict, and the (possibly rewritten) line
sequence. -/
def scanGo (st : Option String) (e : List (String × EnumDef)) :
    List String →
    Option (Option String × List (String × EnumDef) × List String)
  | [] => some (st, e, [])
  | line :: rest =>
    match stepLine st e line with
    | none => none
    | some (st1, e1, nl) =>
      (scanGo st1 e1 rest).map (fun r => (r.1, r.2.1, nl :: r.2.2))

/-- `rewrite_enums(lines)`: scan from the uninitialized tracker and the
empty dict; returns the enum dict and the mutated line sequence. -/
def rewriteEnums (lines : List String) :
    Option (List (String × EnumDef) × List String) :=
  (scanGo none [] lines).map (fun r => (r.2.1, r.2.2))

/-- `re.sub` of a fixed nonempty literal pattern: replace every
non-overlapping occurrence, scanning left to right. The fuel argument is
an upper bound on the scan length; each step consumes at least one input
character, so fuel `l.length` (supplied by `replaceSub`) never runs out. -/
def replaceSubGo (pat rep : List Char) : Nat → List Char → List Char
  | _, [] => []
  | 0, l => l
  | fuel + 1, c :: cs =>
    if pat.isEmpty = false && pfx pat (c :: cs) then
      rep ++ replaceSubGo pat rep fuel ((c :: cs).drop pat.length)
    else c :: replaceSubGo pat rep fuel cs

/-- Entry point of `replaceSubGo` with adequate fuel. -/
def replaceSub (pat rep l : List Char) : List Char :=
  replaceSubGo pat rep l.length l

/-- `re.sub(r"\s*\* ", "  /// ", line)`: at each position, the greedy
whitespace run followed by `* ` is replaced; otherwise advance one
character. Fuel as in `replaceSubGo`. -/
def subStarGo : Nat → List Char → List Char
  | _, [] => []
  | 0, l => l
  | fuel + 1, c :: cs =>
    match (c :: cs).dropWhile isPySpace with
    | '*' :: ' ' :: tail =>
      if isPySpace c || c = '*' then ("  /// ").data ++ subStarGo fuel tail
      else c :: subStarGo fuel cs
    | _ => c :: subStarGo fuel cs

/-- Entry point of `subStarGo` with adequate fuel. -/
def subStar (l : List Char) : List Char :=
  subStarGo l.length l

/-- Suffix of the list after the first occurrence of `pat`, if any. -/
def splitAfter (pat : List Char) : List Char → Option (List Char)
  | [] => if pat.isEmpty then some [] else none
  | c :: cs =>
    if pfx pat (c :: cs) then some ((c :: cs).drop pat.length)
    else splitAfter pat cs

/-- `re.sub(RE.INTERFACE.pattern, "pub struct \g<name> {", line)`: at
every occurrence of `interface ` followed by a nonempty word run whose
remainder contains ` {`, the match (which, with the lazy `(.+?)?`, extends
to the first ` {`) is replaced by `pub struct <name> {`; scanning
continues after the replacement. Fuel as in `replaceSubGo`. -/
def subIfaceGo : Nat → List Char → List Char
  | _, [] => []
  | 0, l => l
  | fuel + 1, c :: cs =>
    if pfx (("interface ").data) (c :: cs) then
      let after := (c :: cs).drop 10
      let name := after.takeWhile isWordChar
      let rem := after.dropWhile isWordChar
      if name.isEmpty then c :: subIfaceGo fuel cs
      else
        match splitAfter ((" \x7b").data) rem with
        | some tail =>
          ("pub struct ").data ++ name ++ (" \x7b").data ++ subIfaceGo fuel tail
        | none => c :: subIfaceGo fuel cs
    else c :: subIfaceGo fuel cs

/-- Entry point of `subIfaceGo` with adequate fuel. -/
def subIface (l : List Char) : List Char :=
  subIfaceGo l.length l

/-- `dict_replace(line, RPL)`: the pattern table applied in insertion
order — `string`→`String`, `boolean`→`bool`, `number`→`i64`,
`\s*\* `→`  /// `, `;`→`,`, and the interface pattern→struct opening. -/
def dictReplace (line : String) : String :=
  let s1 := replaceSub (("string").data) (("String").data) line.data
  let s2 := replaceSub (("boolean").data) (("bool").data) s1
  let s3 := replaceSub (("number").data) (("i64").data) s2
  let s4 := subStar s3
  let s5 := replaceSub ((";").data) ((",").data) s4
  String.mk (subIface s5)

/-- `should_remove(line)`: whitespace-only lines, and lines on which
`re.search` finds any of the patterns in `RM_LINES_WITH` — the literal
patterns `  /**`, `  */`, `body: {`, `};`, and `RE.TYPE_TAG`
(`(event|command): .*`), whose search succeeds exactly when `event: ` or
`command: ` occurs as a substring. -/
def shouldRemove (line : String) : Bool :=
  line.data.all isPySpace ||
  hasSub (("  /**").data) line.data ||
  hasSub (("  */").data) line.data ||
  hasSub (("body: \x7b").data) line.data ||
  hasSub (("\x7d;").data) line.data ||
  hasSub (("event: ").data) line.data ||
  hasSub (("command: ").data) line.data

/-- The per-line second pass of the driver: drop the line if
`should_remove` holds, otherwise apply the pattern table and the field
rewriter. -/
def processLine (line : String) : Option String :=
  if shouldRemove line then none
  else some (editFieldLine (dictReplace line))

/-- The whole `__main__` pipeline on the line list: `rewrite_enums` first,
then the filtered second pass; returns the generated enum artifacts in
dict order and the rewritten body lines. -/
def driverOutput (lines : List String) :
    Option (List EnumDef × List String) :=
  (rewriteEnums lines).map (fun r => (r.1.map Prod.snd, r.2.filterMap processLine))

/-- One item of the printed output stream. -/
inductive OutItem where
  | enumBlock (d : EnumDef)
  | blank
  | bodyLine (s : String)
  deriving DecidableEq, Repr

/-- The printed output stream of the driver: every generated enum block in
dict order, a blank line, then the rewritten body. -/
def printedStream (lines : List String) : Option (List OutItem) :=
  (driverOutput lines).map (fun r =>
    r.1.map OutItem.enumBlock ++ OutItem.blank :: r.2.map OutItem.bodyLine)

/-- Index of the first occurrence of a key in a list (list length when
absent). -/
def idxOf (k : String) : List String → Nat
  | [] => 0
  | x :: xs => if x = k then 0 else idxOf k xs + 1

/-! ### Helper lemmas -/

theorem pfx_iff (p : List Char) : ∀ l, pfx p l = true ↔ ∃ r, l = p ++ r := by
  induction p with
  | nil => intro l; simp [pfx]
  | cons a as1 ih =>
    intro l
    cases l with
    | nil =>
      simp [pfx]
    | cons b bs =>
      simp only [pfx, Bool.and_eq_true, decide_eq_true_eq, ih bs]
      constructor
      · rintro ⟨rfl, r, rfl⟩
        exact ⟨r, rfl⟩
      · rintro ⟨r, hr⟩
        rw [List.cons_append] at hr
        obtain ⟨h1, h2⟩ := List.cons.inj hr
        exact ⟨h1.symm, r, h2⟩

theorem hasSub_iff (p : List Char) : ∀ l, hasSub p l = true ↔ ∃ u v, l = u ++ p ++ v := by
  intro l
  induction l with
  | nil =>
    simp only [hasSub, List.isEmpty_iff]
    constructor
    · rintro rfl; exact ⟨[], [], rfl⟩
    · rintro ⟨u, v, h⟩
      rcases List.append_eq_nil.mp h.symm with ⟨h1, h2⟩
      exact (List.append_eq_nil.mp h1).2
  | cons c cs ih =>
    simp only [hasSub, Bool.or_eq_true, pfx_iff, ih]
    constructor
    · rintro (⟨r, hr⟩ | ⟨u, v, hv⟩)
      · exact ⟨[], r, by simpa using hr⟩
      · exact ⟨c :: u, v, by simp [hv]⟩
    · rintro ⟨u, v, hv⟩
      cases u with
      | nil => exact Or.inl ⟨v, by simpa using hv⟩
      | cons x u1 =>
        simp only [List.cons_append, List.append_assoc] at hv
        obtain ⟨h1, h2⟩ := List.cons.inj hv
        exact Or.inr ⟨u1, v, by simp [h2]⟩

theorem ContainsSub_iff (pat line : String) :
    hasSub pat.data line.data = true ↔ ContainsSub pat line := by
  exact hasSub_iff pat.data line.data

theorem splitCh_no_sep (sep : Char) :
    ∀ l : List Char, (∀ c ∈ l, c ≠ sep) → splitCh sep l = [l] := by
  intro l
  induction l with
  | nil => intro _; rfl
  | cons c cs ih =>
    intro h
    have hc : ¬ (c = sep) := h c (List.mem_cons_self c cs)
    have hcs := ih (fun x hx => h x (List.mem_cons_of_mem c hx))
    simp [splitCh, hc, hcs]

theorem mem_takeWhile {p : α → Bool} :
    ∀ {l : List α} {x : α}, x ∈ l.takeWhile p → p x = true := by
  intro l
  induction l with
  | nil => intro x hx; simp [List.takeWhile] at hx
  | cons a l1 ih =>
    intro x hx
    rw [List.takeWhile] at hx
    cases hpa : p a with
    | false => rw [hpa] at hx; simp at hx
    | true =>
      rw [hpa] at hx
      rcases List.mem_cons.mp hx with rfl | hx1
      · exact hpa
      · exact ih hx1

theorem extractWord_shape :
    ∀ {seg : List Char} {t : String}, extractWord seg = some t →
      t.data ≠ [] ∧ ∀ c ∈ t.data, isWordChar c = true := by
  intro seg
  induction seg with
  | nil => intro t h; simp [extractWord] at h
  | cons c cs ih =>
    intro t h
    rw [extractWord] at h
    by_cases hc : isWordChar c = true
    · rw [if_pos hc] at h
      obtain rfl := Option.some.inj h
      refine ⟨by simp, ?_⟩
      intro x hx
      rcases List.mem_cons.mp hx with rfl | hx1
      · exact hc
      · exact mem_takeWhile hx1
    · rw [if_neg hc] at h
      exact ih h

theorem mapOpt_mem {f : α → Option β} {b : β} :
    ∀ {l : List α} {bs : List β}, mapOpt f l = some bs → b ∈ bs →
      ∃ a, a ∈ l ∧ f a = some b := by
  intro l
  induction l with
  | nil =>
    intro bs h hb
    obtain rfl := Option.some.inj h
    simp at hb
  | cons a l1 ih =>
    intro bs h hb
    rw [mapOpt] at h
    cases hfa : f a with
    | none => rw [hfa] at h; simp at h
    | some b0 =>
      rw [hfa] at h
      cases hml : mapOpt f l1 with
      | none => rw [hml] at h; simp at h
      | some bs1 =>
        rw [hml] at h
        obtain rfl := Option.some.inj h
        rcases List.mem_cons.mp hb with rfl | hb1
        · exact ⟨a, List.mem_cons_self a l1, hfa⟩
        · obtain ⟨a1, ha1, hfa1⟩ := ih hml hb1
          exact ⟨a1, List.mem_cons_of_mem a ha1, hfa1⟩

theorem cap_of_ne_nil {l : List Char} (h : l ≠ []) : cap l = some (capT l) := by
  cases l with
  | nil => exact absurd rfl h
  | cons c cs => rfl

theorem mapOpt_cap_of_nonempty :
    ∀ {parts : List (List Char)}, (∀ p ∈ parts, p ≠ []) →
      mapOpt cap parts = some (parts.map capT) := by
  intro parts
  induction parts with
  | nil => intro _; rfl
  | cons p ps ih =>
    intro h
    have hp := cap_of_ne_nil (h p (List.mem_cons_self p ps))
    have hps := ih (fun x hx => h x (List.mem_cons_of_mem p hx))
    rw [mapOpt, hp, hps, List.map]

theorem strToVariant_of_all_nonempty {s : String}
    (h : ∀ p ∈ splitCh ' ' s.data, p ≠ []) :
    strToVariant s = some (vnameT s) := by
  rw [strToVariant, mapOpt_cap_of_nonempty h, Option.map_some']
  rfl

/-- On every token `get_strings` can produce (a nonempty word-character
run), `str_to_variant` succeeds and computes `vnameT`. -/
theorem strToVariant_vnameT {line : String} {strings : List String}
    (hg : getStrings line = some strings) :
    ∀ t ∈ strings, strToVariant t = some (vnameT t) := by
  intro t ht
  obtain ⟨seg, _, hseg⟩ := mapOpt_mem hg ht
  obtain ⟨hne, hword⟩ := extractWord_shape hseg
  have hnosp : ∀ c ∈ t.data, c ≠ ' ' := by
    intro c hc hsp
    have := hword c hc
    rw [hsp] at this
    simp [isWordChar] at this
  have hsplit := splitCh_no_sep ' ' t.data hnosp
  apply strToVariant_of_all_nonempty
  rw [hsplit]
  intro p hp
  rcases List.mem_singleton.mp hp with rfl
  exact hne

/-- Tokens produced by `get_strings` are nonempty word-character runs. -/
theorem getStrings_token_shape {line : String} {strings : List String}
    (hg : getStrings line = some strings) :
    ∀ t ∈ strings, t.data ≠ [] ∧ ∀ c ∈ t.data, isWordChar c = true := by
  intro t ht
  obtain ⟨seg, _, hseg⟩ := mapOpt_mem hg ht
  exact extractWord_shape hseg

/-- Core round-trip lemma for closed literals: when distinct closed tokens
derive distinct variant names, parsing a listed closed literal succeeds and
unparsing returns the literal (through its closed variant, or through the
open variant when the marker precedes it in the list). -/
theorem fromStr_toStr_closed :
    ∀ (strings : List String) (ename lit : String),
      lit ∈ strings → lit ≠ ("string") →
      (∀ t1, t1 ∈ strings → ∀ t2, t2 ∈ strings → t1 ≠ ("string") →
        t2 ≠ ("string") → vnameT t1 = vnameT t2 → t1 = t2) →
      ∃ v, fromStr strings ename lit = Except.ok v ∧
        toStr strings v = some lit ∧
        (v = EnumVariant.stringV lit ∨ v = EnumVariant.closedV (vnameT lit)) := by
  intro strings
  induction strings with
  | nil => intro ename lit h _ _; simp at h
  | cons item rest ih =>
    intro ename lit hmem hlit hinj
    by_cases hitem : item = ("string")
    · subst hitem
      refine ⟨EnumVariant.stringV lit, ?_, ?_, Or.inl rfl⟩
      · rw [fromStr]; simp
      · rw [toStr]; simp
    · by_cases hs : lit = item
      · subst hs
        refine ⟨EnumVariant.closedV (vnameT lit), ?_, ?_, Or.inr rfl⟩
        · rw [fromStr]; simp [hitem]
        · rw [toStr]; simp [hitem]
      · have hmem1 : lit ∈ rest := by
          rcases List.mem_cons.mp hmem with h | h
          · exact absurd h hs
          · exact h
        have hinj1 : ∀ t1, t1 ∈ rest → ∀ t2, t2 ∈ rest → t1 ≠ ("string") →
            t2 ≠ ("string") → vnameT t1 = vnameT t2 → t1 = t2 := by
          intro t1 h1 t2 h2
          exact hinj t1 (List.mem_cons_of_mem item h1) t2 (List.mem_cons_of_mem item h2)
        obtain ⟨v, hv1, hv2, hv3⟩ := ih ename lit hmem1 hlit hinj1
        refine ⟨v, ?_, ?_, hv3⟩
        · rw [fromStr]; simp [hitem, hs, hv1]
        · rcases hv3 with rfl | rfl
          · rw [toStr]; simp [hitem, hv2]
          · have hne : vnameT lit ≠ vnameT item := by
              intro heq
              exact hs (hinj lit hmem item (List.mem_cons_self item rest) hlit hitem heq)
            rw [toStr]; simp [hitem, hne, hv2]

/-- Core round-trip lemma for the open variant: when the marker is present
and the input equals no closed token, parsing yields the open variant
carrying the input and unparsing returns it unchanged. -/
theorem fromStr_toStr_open :
    ∀ (strings : List String) (ename s : String),
      ("string") ∈ strings →
      (∀ t ∈ strings, t ≠ ("string") → s ≠ t) →
      fromStr strings ename s = Except.ok (EnumVariant.stringV s) ∧
      toStr strings (EnumVariant.stringV s) = some s := by
  intro strings
  induction strings with
  | nil => intro ename s h _; simp at h
  | cons item rest ih =>
    intro ename s hmem hne
    by_cases hitem : item = ("string")
    · subst hitem
      constructor
      · rw [fromStr]; simp
      · rw [toStr]; simp
    · have hmem1 : ("string") ∈ rest := by
        rcases List.mem_cons.mp hmem with h | h
        · exact absurd h.symm hitem
        · exact h
      have hs : s ≠ item := hne item (List.mem_cons_self item rest) hitem
      have hne1 : ∀ t ∈ rest, t ≠ ("string") → s ≠ t := by
        intro t ht
        exact hne t (List.mem_cons_of_mem item ht)
      obtain ⟨h1, h2⟩ := ih ename s hmem1 hne1
      constructor
      · rw [fromStr]; simp [hitem, hs, h1]
      · rw [toStr]; simp [hitem, h2]

theorem keysOf_dictInsert (k : String) (v : EnumDef) :
    ∀ e, keysOf (dictInsert k v e) =
      if k ∈ keysOf e then keysOf e else keysOf e ++ [k] := by
  intro e
  induction e with
  | nil => simp [dictInsert, keysOf]
  | cons p rest ih =>
    obtain ⟨k1, v1⟩ := p
    by_cases hk : k1 = k
    · subst hk
      simp [dictInsert, keysOf]
    · have hne : k ≠ k1 := fun h => hk h.symm
      have hstep : dictInsert k v ((k1, v1) :: rest) = (k1, v1) :: dictInsert k v rest := by
        rw [dictInsert, if_neg hk]
      rw [hstep]
      have h1 : keysOf ((k1, v1) :: dictInsert k v rest) = k1 :: keysOf (dictInsert k v rest) := rfl
      have h2 : keysOf ((k1, v1) :: rest) = k1 :: keysOf rest := rfl
      rw [h1, ih, h2]
      by_cases hmem : k ∈ keysOf rest
      · rw [if_pos hmem, if_pos (List.mem_cons_of_mem k1 hmem)]
      · have hnm : k ∉ k1 :: keysOf rest := by
          intro hx
          rcases List.mem_cons.mp hx with h | h
          · exact hne h
          · exact hmem h
        rw [if_neg hmem, if_neg hnm, List.cons_append]

theorem mem_keysOf_dictInsert (k : String) (v : EnumDef) (e : List (String × EnumDef)) :
    k ∈ keysOf (dictInsert k v e) := by
  rw [keysOf_dictInsert]
  by_cases h : k ∈ keysOf e
  · simp [h]
  · simp [h]

theorem stepLine_keys {st : Option String} {e : List (String × EnumDef)}
    {line : String} {st1 : Option String} {e1 : List (String × EnumDef)}
    {nl : String} (h : stepLine st e line = some (st1, e1, nl)) :
    ∃ ks, keysOf e1 = keysOf e ++ ks := by
  cases him : interfaceMatch line with
  | some n =>
    simp only [stepLine, him, Option.some.injEq, Prod.mk.injEq] at h
    obtain ⟨-, h2, -⟩ := h
    exact ⟨[], by rw [← h2, List.append_nil]⟩
  | none =>
    cases hen : enumMatch line with
    | none =>
      simp only [stepLine, him, hen, Option.some.injEq, Prod.mk.injEq] at h
      obtain ⟨-, h2, -⟩ := h
      exact ⟨[], by rw [← h2, List.append_nil]⟩
    | some vov =>
      obtain ⟨v, o, vs⟩ := vov
      cases hgs : getStrings vs with
      | none => simp [stepLine, him, hen, hgs] at h
      | some strs =>
        simp only [stepLine, him, hen, hgs, Option.map_some', Option.some.injEq,
          Prod.mk.injEq] at h
        obtain ⟨-, h2, -⟩ := h
        rw [← h2, keysOf_dictInsert]
        by_cases hmem : (optName st ++ pyCapitalize v) ∈ keysOf e
        · exact ⟨[], by simp [hmem]⟩
        · exact ⟨[optName st ++ pyCapitalize v], by simp [hmem]⟩

theorem scanGo_keys :
    ∀ (ls : List String) (st : Option String) (e : List (String × EnumDef))
      (st2 : Option String) (e2 : List (String × EnumDef)) (out : List String),
      scanGo st e ls = some (st2, e2, out) →
      ∃ ks, keysOf e2 = keysOf e ++ ks := by
  intro ls
  induction ls with
  | nil =>
    intro st e st2 e2 out h
    simp only [scanGo, Option.some.injEq, Prod.mk.injEq] at h
    obtain ⟨-, h2, -⟩ := h
    exact ⟨[], by rw [← h2, List.append_nil]⟩
  | cons line rest ih =>
    intro st e st2 e2 out h
    cases hstep : stepLine st e line with
    | none =>
      have hred : scanGo st e (line :: rest) = none := by rw [scanGo, hstep]
      rw [hred] at h
      simp at h
    | some r =>
      obtain ⟨st1, e1, nl⟩ := r
      have hred : scanGo st e (line :: rest) =
          (scanGo st1 e1 rest).map (fun r => (r.1, r.2.1, nl :: r.2.2)) := by
        rw [scanGo, hstep]
      rw [hred] at h
      cases hrec : scanGo st1 e1 rest with
      | none => rw [hrec] at h; simp at h
      | some r2 =>
        obtain ⟨st2a, e2a, lsa⟩ := r2
        rw [hrec] at h
        simp only [Option.map_some', Option.some.injEq, Prod.mk.injEq] at h
        obtain ⟨-, h2, -⟩ := h
        obtain ⟨ks1, hk1⟩ := stepLine_keys hstep
        obtain ⟨ks2, hk2⟩ := ih st1 e1 st2a e2a lsa hrec
        exact ⟨ks1 ++ ks2, by rw [← h2, hk2, hk1, List.append_assoc]⟩

theorem membership_keysOf_scanGo {st : Option String} {e : List (String × EnumDef)}
    {ls : List String} {st2 : Option String} {e2 : List (String × EnumDef)}
    {out : List String} {k : String}
    (h : scanGo st e ls = some (st2, e2, out)) (hk : k ∈ keysOf e) :
    k ∈ keysOf e2 := by
  obtain ⟨ks, hks⟩ := scanGo_keys ls st e st2 e2 out h
  rw [hks]
  exact List.mem_append_left ks hk

theorem scanGo_append :
    ∀ (xs ys : List String) (st : Option String) (e : List (String × EnumDef)),
      scanGo st e (xs ++ ys) =
        (scanGo st e xs).bind (fun r =>
          (scanGo r.1 r.2.1 ys).map (fun q => (q.1, q.2.1, r.2.2 ++ q.2.2))) := by
  intro xs
  induction xs with
  | nil =>
    intro ys st e
    rw [List.nil_append]
    cases h : scanGo st e ys with
    | none => simp [scanGo, h]
    | some r => simp [scanGo, h]
  | cons line xs1 ih =>
    intro ys st e
    cases hstep : stepLine st e line with
    | none =>
      have hl : scanGo st e (line :: xs1 ++ ys) = none := by
        rw [List.cons_append, scanGo, hstep]
      have hr : scanGo st e (line :: xs1) = none := by rw [scanGo, hstep]
      rw [hl, hr]
      rfl
    | some r =>
      obtain ⟨st1, e1, nl⟩ := r
      have hl : scanGo st e (line :: xs1 ++ ys) =
          (scanGo st1 e1 (xs1 ++ ys)).map (fun r => (r.1, r.2.1, nl :: r.2.2)) := by
        rw [List.cons_append, scanGo, hstep]
      have hr : scanGo st e (line :: xs1) =
          (scanGo st1 e1 xs1).map (fun r => (r.1, r.2.1, nl :: r.2.2)) := by
        rw [scanGo, hstep]
      rw [hl, hr, ih ys st1 e1]
      cases h1 : scanGo st1 e1 xs1 with
      | none => simp
      | some r1 =>
        obtain ⟨sta, ea, lsa⟩ := r1
        cases h2 : scanGo sta ea ys with
        | none => simp [h2]
        | some r2 =>
          obtain ⟨st2, e2, ls2⟩ := r2
          simp [h2]

theorem scanGo_cons_enum {line v vs : String} {o : Bool} {strs : List String}
    (him : interfaceMatch line = none) (hen : enumMatch line = some (v, o, vs))
    (hgs : getStrings vs = some strs)
    (st : Option String) (e : List (String × EnumDef)) (rest : List String) :
    scanGo st e (line :: rest) =
      (scanGo st (dictInsert (optName st ++ pyCapitalize v)
          (EnumDef.mk (optName st ++ pyCapitalize v) strs) e) rest).map
        (fun r => (r.1, r.2.1, mkPubLine v o (optName st ++ pyCapitalize v) :: r.2.2)) := by
  rw [scanGo]
  simp only [stepLine, him, hen, hgs, Option.map_some']

theorem stepLine_state {st : Option String} {e : List (String × EnumDef)}
    {line : String} {st1 : Option String} {e1 : List (String × EnumDef)}
    {nl : String} (him : interfaceMatch line = none)
    (h : stepLine st e line = some (st1, e1, nl)) : st1 = st := by
  cases hen : enumMatch line with
  | none =>
    simp only [stepLine, him, hen, Option.some.injEq, Prod.mk.injEq] at h
    exact h.1.symm
  | some vov =>
    obtain ⟨v, o, vs⟩ := vov
    cases hgs : getStrings vs with
    | none => simp [stepLine, him, hen, hgs] at h
    | some strs =>
      simp only [stepLine, him, hen, hgs, Option.map_some', Option.some.injEq,
        Prod.mk.injEq] at h
      exact h.1.symm

theorem scanGo_state_none :
    ∀ (pre : List String) (e : List (String × EnumDef)) (st2 : Option String)
      (e2 : List (String × EnumDef)) (out : List String),
      (∀ l ∈ pre, interfaceMatch l = none) →
      scanGo none e pre = some (st2, e2, out) → st2 = none := by
  intro pre
  induction pre with
  | nil =>
    intro e st2 e2 out _ h
    simp only [scanGo, Option.some.injEq, Prod.mk.injEq] at h
    exact h.1.symm
  | cons line rest ih =>
    intro e st2 e2 out hpre h
    cases hstep : stepLine none e line with
    | none =>
      have hred : scanGo none e (line :: rest) = none := by rw [scanGo, hstep]
      rw [hred] at h
      simp at h
    | some r =>
      obtain ⟨st1, e1, nl⟩ := r
      have hst1 : st1 = none :=
        stepLine_state (hpre line (List.mem_cons_self line rest)) hstep
      subst hst1
      have hred : scanGo none e (line :: rest) =
          (scanGo none e1 rest).map (fun r => (r.1, r.2.1, nl :: r.2.2)) := by
        rw [scanGo, hstep]
      rw [hred] at h
      cases hrec : scanGo none e1 rest with
      | none => rw [hrec] at h; simp at h
      | some r2 =>
        obtain ⟨st2a, e2a, lsa⟩ := r2
        rw [hrec] at h
        simp only [Option.map_some', Option.some.injEq, Prod.mk.injEq] at h
        rw [← h.1]
        exact ih e1 st2a e2a lsa (fun l hl => hpre l (List.mem_cons_of_mem line hl)) hrec

theorem idxOf_append_of_mem {k : String} :
    ∀ {l : List String}, k ∈ l → ∀ m, idxOf k (l ++ m) = idxOf k l := by
  intro l
  induction l with
  | nil => intro h; simp at h
  | cons x xs ih =>
    intro h m
    by_cases hx : x = k
    · simp [idxOf, hx]
    · have h1 : k ∈ xs := by
        rcases List.mem_cons.mp h with h2 | h2
        · exact absurd h2.symm hx
        · exact h2
      simp [idxOf, hx, ih h1]

theorem idxOf_lt_length {k : String} :
    ∀ {l : List String}, k ∈ l → idxOf k l < l.length := by
  intro l
  induction l with
  | nil => intro h; simp at h
  | cons x xs ih =>
    intro h
    by_cases hx : x = k
    · simp [idxOf, hx]
    · have h1 : k ∈ xs := by
        rcases List.mem_cons.mp h with h2 | h2
        · exact absurd h2.symm hx
        · exact h2
      simp only [idxOf, if_neg hx, List.length_cons]
      exact Nat.succ_lt_succ (ih h1)

theorem idxOf_append_of_not_mem {k : String} :
    ∀ {l : List String}, k ∉ l → ∀ m, idxOf k (l ++ m) = l.length + idxOf k m := by
  intro l
  induction l with
  | nil => intro _ m; simp [idxOf]
  | cons x xs ih =>
    intro h m
    have hx : ¬ (x = k) := fun hxk => h (by rw [hxk]; exact List.mem_cons_self k xs)
    have h1 : k ∉ xs := fun hk => h (List.mem_cons_of_mem x hk)
    simp only [List.cons_append, idxOf, if_neg hx, List.length_cons]
    show idxOf k (xs ++ m) + 1 = xs.length + 1 + idxOf k m
    rw [ih h1 m]
    omega

theorem mapOpt_eq_none {f : α → Option β} :
    ∀ {l : List α} {a : α}, a ∈ l → f a = none → mapOpt f l = none := by
  intro l
  induction l with
  | nil => intro a h _; simp at h
  | cons x xs ih =>
    intro a h hfa
    rw [mapOpt]
    rcases List.mem_cons.mp h with rfl | h1
    · rw [hfa]
    · rw [ih h1 hfa]
      cases f x <;> rfl

theorem fromStr_closed_error :
    ∀ (strings : List String) (ename s : String),
      ("string") ∉ strings → s ∉ strings →
      fromStr strings ename s = Except.error ⟨ename, s⟩ := by
  intro strings
  induction strings with
  | nil => intro ename s _ _; rfl
  | cons item rest ih =>
    intro ename s hopen hs
    have hitem : ¬ (item = ("string")) := fun h => hopen (h ▸ List.mem_cons_self item rest)
    have hsit : ¬ (s = item) := fun h => hs (h ▸ List.mem_cons_self item rest)
    rw [fromStr, if_neg hitem, if_neg hsit]
    exact ih ename s (fun h => hopen (List.mem_cons_of_mem item h))
      (fun h => hs (List.mem_cons_of_mem item h))

/-! ### Claim theorems -/

/-- Claim C1, counterexample: for the union expression `'a' | 'A'` the two
closed literals derive the same variant name `A`, the generated unparse
match resolves that name to its first arm, and the closed literal `A` does
not round-trip: `unparse(parse("A")) = "a" ≠ "A"`. -/
theorem claim_C1_counterexample :
    getStrings ("'a' | 'A'") = some [("a"), ("A")] ∧
    vnameT ("a") = vnameT ("A") ∧
    fromStr [("a"), ("A")] ("E") ("A") = Except.ok (EnumVariant.closedV ("A")) ∧
    toStr [("a"), ("A")] (EnumVariant.closedV ("A")) = some ("a") ∧
    (("a") : String) ≠ ("A") :=
  ⟨by decide, by decide, by rfl, by rfl, by decide⟩

/-- Claim C1 (amended): for every union expression in which distinct closed
literals derive distinct variant names, the generated parse and unparse
routines are exact inverses on all closed literals
(`unparse(parse(lit)) = lit`), and when the expression contains the open
marker `string`, every input string equal to no closed literal parses to
the open variant carrying it and unparses back to that exact string
(a closed literal itself round-trips through its own variant, which is the
open variant only when the marker precedes its arm). -/
theorem claim_C1_amended (line ename : String) (strings : List String)
    (hg : getStrings line = some strings)
    (hinj : ∀ t1, t1 ∈ strings → ∀ t2, t2 ∈ strings → t1 ≠ ("string") →
      t2 ≠ ("string") → vnameT t1 = vnameT t2 → t1 = t2) :
    (∀ lit, lit ∈ strings → lit ≠ ("string") →
      ∃ v, fromStr strings ename lit = Except.ok v ∧
        toStr strings v = some lit) ∧
    (("string") ∈ strings → ∀ s, (∀ t ∈ strings, t ≠ ("string") → s ≠ t) →
      fromStr strings ename s = Except.ok (EnumVariant.stringV s) ∧
      toStr strings (EnumVariant.stringV s) = some s) := by
  constructor
  · intro lit hmem hlit
    obtain ⟨v, h1, h2, -⟩ := fromStr_toStr_closed strings ename lit hmem hlit hinj
    exact ⟨v, h1, h2⟩
  · intro hopen s hne
    exact fromStr_toStr_open strings ename s hopen hne

/-- Claim C1 witness: the amended round trip evaluated on the union
expression `'open' | 'closed' | string` at the closed literal `open` and
at the non-literal input `zzz`. -/
theorem claim_C1_witness :
    (∃ v, fromStr [("open"), ("closed"), ("string")] ("IssueStatus") ("open") =
        Except.ok v ∧
      toStr [("open"), ("closed"), ("string")] v = some ("open")) ∧
    fromStr [("open"), ("closed"), ("string")] ("IssueStatus") ("zzz") =
      Except.ok (EnumVariant.stringV ("zzz")) ∧
    toStr [("open"), ("closed"), ("string")] (EnumVariant.stringV ("zzz")) =
      some ("zzz") := by
  have h := claim_C1_amended ("'open' | 'closed' | string") ("IssueStatus")
    [("open"), ("closed"), ("string")] (by decide) (by decide)
  exact ⟨h.1 ("open") (by decide) (by decide),
    (h.2 (by decide) ("zzz") (by decide)).1,
    (h.2 (by decide) ("zzz") (by decide)).2⟩

/-- Claim C2: for every union expression without the open marker `string`,
the generated parse routine maps any input equal to no closed literal to
the recoverable decoding failure carrying the enum name and the offending
value (and so never succeeds on such an input: no catch-all success case
exists). -/
theorem claim_C2 (line ename s : String) (strings : List String)
    (hg : getStrings line = some strings)
    (hopen : ("string") ∉ strings) (hs : s ∉ strings) :
    fromStr strings ename s =
      Except.error (DeserializationError.mk ename s) :=
  fromStr_closed_error strings ename s hopen hs

/-- Claim C2 witness: the closed union `'normal' | 'emphasize'` rejects the
input `other` with an error naming the enum and the input. -/
theorem claim_C2_witness :
    getStrings ("'normal' | 'emphasize'") = some [("normal"), ("emphasize")] ∧
    fromStr [("normal"), ("emphasize")] ("SourcePresentationhint") ("other") =
      Except.error (DeserializationError.mk ("SourcePresentationhint") ("other")) :=
  ⟨by decide,
    claim_C2 ("'normal' | 'emphasize'") ("SourcePresentationhint") ("other")
      [("normal"), ("emphasize")] (by decide) (by decide) (by decide)⟩

/-- Claim C4, counterexample: the literal `a  b` contains internal spaces,
but variant-name derivation raises `IndexError` (modelled `none`) instead
of producing the concatenation `AB`; the claim example `in progress` itself
does work. -/
theorem claim_C4_counterexample :
    strToVariant ("a  b") = none ∧
    strToVariant ("a  b") ≠ some ("AB") ∧
    strToVariant ("in progress") = some ("InProgress") :=
  ⟨by decide, by decide, by decide⟩

/-- Claim C4 (amended): variant-name derivation is a pure function; for
every literal whose space-separated segments are all nonempty the derived
name is each segment capitalized and concatenated (`vnameT`), and every
nonempty literal without spaces is capitalized as-is; a literal with an
empty space-separated segment (consecutive, leading or trailing spaces, or
the empty literal) makes the derivation raise instead. -/
theorem claim_C4_amended :
    (∀ s : String, (∀ part ∈ splitCh ' ' s.data, part ≠ []) →
      strToVariant s = some (vnameT s)) ∧
    (∀ s : String, s.data ≠ [] → (∀ c ∈ s.data, c ≠ ' ') →
      strToVariant s = some (String.mk (capT s.data))) := by
  constructor
  · intro s h
    exact strToVariant_of_all_nonempty h
  · intro s hne hnosp
    have hsplit := splitCh_no_sep ' ' s.data hnosp
    have h1 : strToVariant s = some (vnameT s) := by
      apply strToVariant_of_all_nonempty
      rw [hsplit]
      intro p hp
      rcases List.mem_singleton.mp hp with rfl
      exact hne
    rw [h1, vnameT, hsplit]
    simp

/-- Claim C4 witness: the amended derivation evaluated at `in progress`
(spaced literal) and `normal` (single token). -/
theorem claim_C4_witness :
    strToVariant ("in progress") = some (vnameT ("in progress")) ∧
    strToVariant ("normal") = some (String.mk (capT ("normal").data)) ∧
    vnameT ("in progress") = ("InProgress") :=
  ⟨claim_C4_amended.1 ("in progress") (by decide),
    claim_C4_amended.2 ("normal") (by decide) (by decide),
    by decide⟩

/-- Claim C7, counterexample: a segment with no extractable word token does
not fail silently — `get_strings` raises (`none` in the model), and the
whole extractor run aborts, e.g. on the field line `  x: | 'a';`. -/
theorem claim_C7_counterexample :
    getStrings ("|") = none ∧
    rewriteEnums [("  x: | 'a';")] = none :=
  ⟨by decide, by decide⟩

/-- Claim C7 (amended): when the union expression is split on `|`, a
segment from which no word token can be extracted makes the generator
raise an uncaught exception (the whole extraction returns no token list);
it does not silently skip the segment. -/
theorem claim_C7_amended (line : String)
    (h : ∃ seg, seg ∈ splitCh '|' line.data ∧ extractWord seg = none) :
    getStrings line = none := by
  obtain ⟨seg, hmem, hseg⟩ := h
  exact mapOpt_eq_none hmem hseg

/-- Claim C7 witness: the amended behaviour evaluated on the expression
`|`, whose first segment is empty. -/
theorem claim_C7_witness :
    (∃ seg, seg ∈ splitCh '|' ("|").data ∧ extractWord seg = none) ∧
    getStrings ("|") = none := by
  have h : ∃ seg, seg ∈ splitCh '|' ("|").data ∧ extractWord seg = none :=
    ⟨[], by decide⟩
  exact ⟨h, claim_C7_amended ("|") h⟩

theorem toLower_of_not_upper {c : Char} (h : c.isUpper = false) : c.toLower = c := by
  rw [Char.toLower]
  rw [if_neg]
  intro hc
  obtain ⟨h1, h2⟩ := hc
  rw [Char.isUpper] at h
  simp only [Bool.and_eq_false_iff, decide_eq_false_iff_not, not_le] at h
  have hv1 : (65 : UInt32) ≤ c.val := by
    rw [UInt32.le_def, BitVec.le_def]
    simpa [Char.toNat, UInt32.toNat] using h1
  have hv2 : c.val ≤ (90 : UInt32) := by
    rw [UInt32.le_def, BitVec.le_def]
    simpa [Char.toNat, UInt32.toNat] using h2
  rcases h with h | h
  · exact h hv1
  · exact h hv2

theorem snek_tail_fixed :
    ∀ cs : List Char, (∀ c ∈ cs, c.isUpper = false) →
      cs.flatMap (fun d => if d.isUpper then ['_', d.toLower] else [d.toLower]) = cs := by
  intro cs
  induction cs with
  | nil => intro _; rfl
  | cons d ds ih =>
    intro h
    have hd : d.isUpper = false := h d (List.mem_cons_self d ds)
    simp [hd, toLower_of_not_upper hd,
      ih (fun x hx => h x (List.mem_cons_of_mem d hx))]

/-- Claim C3, counterexample: on the exact line of the claim,
`status?: 'open' | 'closed' | string,` (terminated by a comma) inside
interface `Issue`, the pipeline generates no enum at all — the union-field
pattern requires a trailing semicolon — and the field line survives with
only the `string`→`String` substitution. -/
theorem claim_C3_counterexample :
    driverOutput [("interface Issue \x7b"),
        ("  status?: 'open' | 'closed' | string,")] =
      some ([], [("pub struct Issue \x7b"),
        ("  status?: 'open' | 'closed' | String,")]) ∧
    enumMatch ("  status?: 'open' | 'closed' | string,") = none :=
  ⟨by decide, by decide⟩

/-- Claim C3 (amended): for the input line
`status?: 'open' | 'closed' | string;` (semicolon-terminated, as in the
schema corpus) inside interface `Issue`, the pipeline generates the enum
`IssueStatus` with variants `Open`, `Closed` and the open string-carrying
variant, and rewrites the field line to reference `Option<IssueStatus>`. -/
theorem claim_C3_amended :
    driverOutput [("interface Issue \x7b"),
        ("  status?: 'open' | 'closed' | string;")] =
      some ([EnumDef.mk ("IssueStatus") [("open"), ("closed"), ("string")]],
        [("pub struct Issue \x7b"), ("  pub status: Option<IssueStatus>,")]) ∧
    getVariants [("open"), ("closed"), ("string")] =
      [VariantSpec.closedV ("Open"), VariantSpec.closedV ("Closed"),
        VariantSpec.stringV] :=
  ⟨by decide, by decide⟩

/-- Claim C5, counterexample: the field line `  subevent: string;`, whose
field name is `subevent` (not exactly `event` or `command`) and which is
not whitespace-only, IS dropped by the line filter, because the type-tag
pattern is an unanchored search for `event: `. -/
theorem claim_C5_counterexample :
    shouldRemove ("  subevent: string;") = true ∧
    (("subevent") : String) ≠ ("event") ∧
    (("subevent") : String) ≠ ("command") ∧
    (("  subevent: string;").data.all isPySpace) = false :=
  ⟨by decide, by decide, by decide, by decide⟩

/-- Claim C5 (amended): the line filter drops a line if and only if it is
whitespace-only or contains one of the following as a substring anywhere:
the two-space-indented doc-comment delimiters `  /**` or `  */`, the
nested-body opening marker `body: ` followed by an opening brace, the
block-closing marker (closing brace followed by `;`), or `event: ` or
`command: ` — so any line containing a discriminator-like fragment,
including a field whose name merely ends in `event` or `command`, is
dropped. -/
theorem claim_C5_amended (line : String) :
    shouldRemove line = true ↔
      (line.data.all isPySpace = true ∨ ContainsSub ("  /**") line ∨
        ContainsSub ("  */") line ∨ ContainsSub ("body: \x7b") line ∨
        ContainsSub ("\x7d;") line ∨ ContainsSub ("event: ") line ∨
        ContainsSub ("command: ") line) := by
  simp only [shouldRemove, Bool.or_eq_true, hasSub_iff, ContainsSub, or_assoc]

/-- Claim C6, counterexample: `Foo` has no uppercase interior letter (its
only uppercase letter is the first character) yet snake-case conversion
changes it to `foo`, because the whole name is lowercased at the end. -/
theorem claim_C6_counterexample :
    thisIsSnek ("Foo") = ("foo") ∧
    (∀ c ∈ (("Foo").data.drop 1), c.isUpper = false) ∧
    thisIsSnek ("Foo") ≠ ("Foo") :=
  ⟨by decide, by decide, by decide⟩

/-- Claim C6 (amended): snake-case conversion maps `someFieldName` to
`some_field_name` (a separator before every non-initial uppercase letter,
then the whole name lowercased), and every name containing no uppercase
letter at all (including its first character) is returned unchanged. -/
theorem claim_C6_amended :
    thisIsSnek ("someFieldName") = ("some_field_name") ∧
    (∀ s : String, (∀ c ∈ s.data, c.isUpper = false) → thisIsSnek s = s) := by
  refine ⟨by decide, ?_⟩
  intro s h
  have hmk : String.mk s.data = s := by cases s; rfl
  rw [thisIsSnek]
  cases hdat : s.data with
  | nil =>
    rw [← hmk, hdat]
  | cons c cs =>
    have hc : c.isUpper = false := h c (by rw [hdat]; exact List.mem_cons_self c cs)
    have hcs : ∀ x ∈ cs, x.isUpper = false := fun x hx =>
      h x (by rw [hdat]; exact List.mem_cons_of_mem c hx)
    show String.mk (c.toLower ::
        cs.flatMap (fun d => if d.isUpper then ['_', d.toLower] else [d.toLower])) = s
    rw [toLower_of_not_upper hc, snek_tail_fixed cs hcs, ← hdat, hmk]

/-- Claim C6 witness: the amended invariance evaluated on a lowercase
snake-case name. -/
theorem claim_C6_witness : thisIsSnek ("abc_def1") = ("abc_def1") :=
  claim_C6_amended.2 ("abc_def1") (by decide)

/-- Claim C10: a union-typed field `presentationHint` inside interface
`Source` derives the enum name `SourcePresentationhint` — `.capitalize()`
lowercases every character after the first — not `SourcePresentationHint`,
and the field line is rewritten to reference it. -/
theorem claim_C10 :
    rewriteEnums [("interface Source \x7b"),
        ("  presentationHint?: 'normal' | 'emphasize' | 'deemphasize';")] =
      some ([(("SourcePresentationhint"),
          EnumDef.mk ("SourcePresentationhint")
            [("normal"), ("emphasize"), ("deemphasize")])],
        [("interface Source \x7b"),
          ("  pub presentationHint: Option<SourcePresentationhint>;")]) ∧
    pyCapitalize ("presentationHint") = ("Presentationhint") ∧
    (("SourcePresentationhint") : String) ≠ ("SourcePresentationHint") :=
  ⟨by decide, by decide, by decide⟩

/-- Claim C8, counterexample: two union-typed fields that derive the same
enum name (`Ax`) both generate enums, but the earlier field's enum block
(token list `p`, `q`) is silently overwritten (last-write-wins, position
kept) and is not printed at all — so it is not printed before the later
field's block. -/
theorem claim_C8_counterexample :
    driverOutput [("interface A \x7b"), ("  foo: 'p' | 'q';"),
        ("  foo: 'r' | 's';")] =
      some ([EnumDef.mk ("AFoo") [("r"), ("s")]],
        [("pub struct A \x7b"), ("  pub foo: AFoo,"), ("  pub foo: AFoo,")]) ∧
    EnumDef.mk ("AFoo") [("p"), ("q")] ∉ [EnumDef.mk ("AFoo") [("r"), ("s")]] :=
  ⟨by decide, by decide⟩

/-- Claim C8 (amended): for every input in which an earlier field generates
an enum under name `n1` and a later field generates one under a name `n2`
not generated by any earlier line, `n1`'s block precedes `n2`'s in the
printed dict order, and the whole printed stream is the enum blocks (in
dict order), a blank, then the rewritten body — so every enum block
precedes the body; when a later field reuses an earlier generated name,
the earlier block is overwritten in place instead (see the
counterexample). -/
theorem claim_C8_amended
    (pre mid post : List String) (la lb : String)
    (st1 st2 st3 : Option String)
    (e1 e2 e3 : List (String × EnumDef))
    (ls1 ls2 ls3 : List String)
    (v1 v2 vs1 vs2 : String) (o1 o2 : Bool)
    (strs1 strs2 : List String) (n1 n2 : String)
    (h1 : scanGo none [] pre = some (st1, e1, ls1))
    (h2 : interfaceMatch la = none)
    (h3 : enumMatch la = some (v1, o1, vs1))
    (h4 : getStrings vs1 = some strs1)
    (hn1 : n1 = optName st1 ++ pyCapitalize v1)
    (h5 : scanGo st1 (dictInsert n1 (EnumDef.mk n1 strs1) e1) mid =
      some (st2, e2, ls2))
    (h6 : interfaceMatch lb = none)
    (h7 : enumMatch lb = some (v2, o2, vs2))
    (h8 : getStrings vs2 = some strs2)
    (hn2 : n2 = optName st2 ++ pyCapitalize v2)
    (hfresh : n2 ∉ keysOf e2)
    (h9 : scanGo st2 (dictInsert n2 (EnumDef.mk n2 strs2) e2) post =
      some (st3, e3, ls3)) :
    rewriteEnums (pre ++ la :: (mid ++ lb :: post)) =
      some (e3, ls1 ++ mkPubLine v1 o1 n1 :: (ls2 ++ mkPubLine v2 o2 n2 :: ls3)) ∧
    idxOf n1 (keysOf e3) < idxOf n2 (keysOf e3) ∧
    printedStream (pre ++ la :: (mid ++ lb :: post)) =
      some ((e3.map Prod.snd).map OutItem.enumBlock ++ OutItem.blank ::
        ((ls1 ++ mkPubLine v1 o1 n1 :: (ls2 ++ mkPubLine v2 o2 n2 :: ls3)).filterMap
          processLine).map OutItem.bodyLine) := by
  subst hn1
  subst hn2
  have hA : scanGo st2 e2 (lb :: post) =
      some (st3, e3, mkPubLine v2 o2 (optName st2 ++ pyCapitalize v2) :: ls3) := by
    rw [scanGo_cons_enum h6 h7 h8 st2 e2 post, h9]
    simp only [Option.map_some']
  have hB : scanGo st1
      (dictInsert (optName st1 ++ pyCapitalize v1)
        (EnumDef.mk (optName st1 ++ pyCapitalize v1) strs1) e1)
      (mid ++ lb :: post) =
      some (st3, e3, ls2 ++ mkPubLine v2 o2 (optName st2 ++ pyCapitalize v2) :: ls3) := by
    rw [scanGo_append mid (lb :: post) st1
      (dictInsert (optName st1 ++ pyCapitalize v1)
        (EnumDef.mk (optName st1 ++ pyCapitalize v1) strs1) e1), h5]
    simp only [Option.some_bind]
    rw [hA]
    simp only [Option.map_some']
  have hC : scanGo st1 e1 (la :: (mid ++ lb :: post)) =
      some (st3, e3, mkPubLine v1 o1 (optName st1 ++ pyCapitalize v1) ::
        (ls2 ++ mkPubLine v2 o2 (optName st2 ++ pyCapitalize v2) :: ls3)) := by
    rw [scanGo_cons_enum h2 h3 h4 st1 e1 (mid ++ lb :: post), hB]
    simp only [Option.map_some']
  have hfirst : rewriteEnums (pre ++ la :: (mid ++ lb :: post)) =
      some (e3, ls1 ++ mkPubLine v1 o1 (optName st1 ++ pyCapitalize v1) ::
        (ls2 ++ mkPubLine v2 o2 (optName st2 ++ pyCapitalize v2) :: ls3)) := by
    rw [rewriteEnums, scanGo_append pre (la :: (mid ++ lb :: post)) none [], h1]
    simp only [Option.some_bind]
    rw [hC]
    simp only [Option.map_some']
  refine ⟨hfirst, ?_, ?_⟩
  · have hkey1 : (optName st1 ++ pyCapitalize v1) ∈
        keysOf (dictInsert (optName st1 ++ pyCapitalize v1)
          (EnumDef.mk (optName st1 ++ pyCapitalize v1) strs1) e1) :=
      mem_keysOf_dictInsert _ _ _
    have hkey1e2 : (optName st1 ++ pyCapitalize v1) ∈ keysOf e2 :=
      membership_keysOf_scanGo h5 hkey1
    have hins2 : keysOf (dictInsert (optName st2 ++ pyCapitalize v2)
        (EnumDef.mk (optName st2 ++ pyCapitalize v2) strs2) e2) =
        keysOf e2 ++ [optName st2 ++ pyCapitalize v2] := by
      rw [keysOf_dictInsert, if_neg hfresh]
    obtain ⟨ks, hks⟩ := scanGo_keys post st2
      (dictInsert (optName st2 ++ pyCapitalize v2)
        (EnumDef.mk (optName st2 ++ pyCapitalize v2) strs2) e2) st3 e3 ls3 h9
    rw [hins2, List.append_assoc] at hks
    rw [hks, idxOf_append_of_mem hkey1e2, idxOf_append_of_not_mem hfresh]
    have hz : idxOf (optName st2 ++ pyCapitalize v2)
        ([optName st2 ++ pyCapitalize v2] ++ ks) = 0 := by
      simp [idxOf]
    rw [hz, Nat.add_zero]
    exact idxOf_lt_length hkey1e2
  · rw [printedStream, driverOutput, hfirst]
    rfl

/-- Claim C8 witness: the amended ordering evaluated on interface `A` with
two union fields `x` and `y`, generating `Ax` then `Ay`. -/
theorem claim_C8_witness :
    rewriteEnums [("interface A \x7b"), ("  foo: 'a' | 'b';"),
        ("  bar: 'c' | 'd';")] =
      some ([(("AFoo"), EnumDef.mk ("AFoo") [("a"), ("b")]),
          (("ABar"), EnumDef.mk ("ABar") [("c"), ("d")])],
        [("interface A \x7b"), ("  pub foo: AFoo;"), ("  pub bar: ABar;")]) ∧
    idxOf ("AFoo") (keysOf [(("AFoo"), EnumDef.mk ("AFoo") [("a"), ("b")]),
        (("ABar"), EnumDef.mk ("ABar") [("c"), ("d")])]) <
      idxOf ("ABar") (keysOf [(("AFoo"), EnumDef.mk ("AFoo") [("a"), ("b")]),
        (("ABar"), EnumDef.mk ("ABar") [("c"), ("d")])]) := by
  have h := claim_C8_amended [("interface A \x7b")] [] [] ("  foo: 'a' | 'b';")
    ("  bar: 'c' | 'd';") (some ("A")) (some ("A")) (some ("A"))
    [] [(("AFoo"), EnumDef.mk ("AFoo") [("a"), ("b")])]
    [(("AFoo"), EnumDef.mk ("AFoo") [("a"), ("b")]),
      (("ABar"), EnumDef.mk ("ABar") [("c"), ("d")])]
    [("interface A \x7b")] [] []
    ("foo") ("bar") ("'a' | 'b'") ("'c' | 'd'") false false
    [("a"), ("b")] [("c"), ("d")] ("AFoo") ("ABar")
    (by decide) (by decide) (by decide) (by decide) (by decide)
    (by decide) (by decide) (by decide) (by decide) (by decide)
    (by decide) (by decide)
  exact ⟨h.1, h.2.1⟩

/-- Claim C9: a union-typed field line occurring before any
interface-opening line does not make the extractor fail — the
uninitialized tracker is interpolated as the text `None`, the generated
enum is stored under `None` concatenated with the capitalized field name,
and the field line is rewritten to reference that name. -/
theorem claim_C9
    (pre post : List String) (la : String)
    (stp : Option String) (ep : List (String × EnumDef)) (lsp : List String)
    (v vs : String) (o : Bool) (strs : List String)
    (ste : Option String) (ee : List (String × EnumDef)) (lse : List String)
    (hpre : ∀ l ∈ pre, interfaceMatch l = none)
    (h1 : scanGo none [] pre = some (stp, ep, lsp))
    (h2 : interfaceMatch la = none)
    (h3 : enumMatch la = some (v, o, vs))
    (h4 : getStrings vs = some strs)
    (h5 : scanGo stp (dictInsert (("None") ++ pyCapitalize v)
        (EnumDef.mk (("None") ++ pyCapitalize v) strs) ep) post =
      some (ste, ee, lse)) :
    rewriteEnums (pre ++ la :: post) =
      some (ee, lsp ++ mkPubLine v o (("None") ++ pyCapitalize v) :: lse) ∧
    (("None") ++ pyCapitalize v) ∈ keysOf ee := by
  have hstp : stp = none := scanGo_state_none pre [] stp ep lsp hpre h1
  subst hstp
  have hcons := scanGo_cons_enum h2 h3 h4 none ep post
  have hname : optName none ++ pyCapitalize v = ("None") ++ pyCapitalize v := rfl
  rw [hname] at hcons
  rw [h5] at hcons
  simp only [Option.map_some'] at hcons
  constructor
  · rw [rewriteEnums, scanGo_append pre (la :: post) none [], h1]
    simp only [Option.some_bind]
    rw [hcons]
    simp only [Option.map_some']
  · exact membership_keysOf_scanGo h5 (mem_keysOf_dictInsert _ _ _)

/-- Claim C9 witness: the field line `  kind: 'a' | 'b';` alone in the
input, before any interface line, yields the enum name `NoneKind` and the
rewritten reference line. -/
theorem claim_C9_witness :
    rewriteEnums [("  kind: 'a' | 'b';")] =
      some ([(("NoneKind"), EnumDef.mk ("NoneKind") [("a"), ("b")])],
        [("  pub kind: NoneKind;")]) ∧
    (("NoneKind") : String) ∈
      keysOf [(("NoneKind"), EnumDef.mk ("NoneKind") [("a"), ("b")])] := by
  have h := claim_C9 [] [] ("  kind: 'a' | 'b';") none [] []
    ("kind") ("'a' | 'b'") false [("a"), ("b")] none
    [(("NoneKind"), EnumDef.mk ("NoneKind") [("a"), ("b")])] []
    (by simp) (by rfl) (by decide) (by decide) (by decide) (by rfl)
  exact h
